import Mathlib

/-!
Verification of the sync scheduler of the repo tool (`subcmds/sync.py`).

The Python code is shallowly embedded: pure helpers become Lean functions,
stateful orchestration loops become structural recursion over explicit
oracle streams (one entry per disk/network effect), and Python exceptions
become explicit `Except`/sum results.  Python `float` durations are modeled
by `ℚ` (all values appearing in the claims are exactly representable),
Python dicts by insertion-ordered association lists, and Python sets by
`Finset`.  POSIX relative paths are modeled by their `'/'`-separated
component lists; `pathlib.Path.relative_to` on the normalized relative
paths used by the tool succeeds exactly when the component list of the base
is a prefix of the component list of the path.
-/

set_option maxHeartbeats 1000000

namespace RepoSync

/-!
## Python-style lexicographic comparison

`sorted(checkouts, key=lambda x: x.relpath.split("/"))` compares keys with
Python's `<` on `list[str]`: elementwise, first difference decides, a
proper prefix is smaller.  `lexLt lt` is that order over any element
comparison `lt`; it is instantiated once with `Char` comparison (Python
`str` `<`, code-point order) and once more for `list[str]`.
-/

def lexLt (lt : α → α → Bool) : List α → List α → Bool
  | [], [] => false
  | [], _ :: _ => true
  | _ :: _, [] => false
  | a :: xs, b :: ys => if lt a b then true else if lt b a then false else lexLt lt xs ys

theorem lexLt_irrefl (lt : α → α → Bool) (hi : ∀ a, lt a a = false) :
    ∀ l, lexLt lt l l = false := by
  intro l
  induction l with
  | nil => rfl
  | cons a xs ih => simp [lexLt, hi a, ih]

theorem lexLt_cons_iff (lt : α → α → Bool) (a b : α) (xs ys : List α) :
    lexLt lt (a :: xs) (b :: ys) = true ↔
      (lt a b = true ∨ (lt a b = false ∧ lt b a = false ∧ lexLt lt xs ys = true)) := by
  rcases h1 : lt a b <;> rcases h2 : lt b a <;> simp [lexLt, h1, h2]

theorem lexLt_trans (lt : α → α → Bool)
    (htr : ∀ a b c, lt a b = true → lt b c = true → lt a c = true)
    (hconn : ∀ a b, lt a b = false → lt b a = false → a = b) :
    ∀ l₁ l₂ l₃, lexLt lt l₁ l₂ = true → lexLt lt l₂ l₃ = true → lexLt lt l₁ l₃ = true := by
  intro l₁
  induction l₁ with
  | nil =>
    intro l₂ l₃ h12 h23
    cases l₂ with
    | nil => simp [lexLt] at h12
    | cons b ys =>
      cases l₃ with
      | nil => simp [lexLt] at h23
      | cons c zs => simp [lexLt]
  | cons a xs ih =>
    intro l₂ l₃ h12 h23
    cases l₂ with
    | nil => simp [lexLt] at h12
    | cons b ys =>
      cases l₃ with
      | nil => simp [lexLt] at h23
      | cons c zs =>
        rw [lexLt_cons_iff] at h12 h23 ⊢
        rcases h12 with hab | ⟨hab, hba, hxy⟩
        · rcases h23 with hbc | ⟨hbc, hcb, _⟩
          · exact Or.inl (htr a b c hab hbc)
          · have : b = c := hconn b c hbc hcb
            subst this
            exact Or.inl hab
        · have : a = b := hconn a b hab hba
          subst this
          rcases h23 with hac | ⟨hac, hca, hyz⟩
          · exact Or.inl hac
          · exact Or.inr ⟨hac, hca, ih ys zs hxy hyz⟩

theorem lexLt_conn (lt : α → α → Bool)
    (hconn : ∀ a b, lt a b = false → lt b a = false → a = b) :
    ∀ l₁ l₂, lexLt lt l₁ l₂ = false → lexLt lt l₂ l₁ = false → l₁ = l₂ := by
  intro l₁
  induction l₁ with
  | nil =>
    intro l₂ h12 _
    cases l₂ with
    | nil => rfl
    | cons b ys => simp [lexLt] at h12
  | cons a xs ih =>
    intro l₂ h12 h21
    cases l₂ with
    | nil => simp [lexLt] at h21
    | cons b ys =>
      by_cases hab : lt a b = true
      · simp [lexLt, hab] at h12
      · have hab' : lt a b = false := by revert hab; cases lt a b <;> simp
        by_cases hba : lt b a = true
        · simp [lexLt, hba] at h21
        · have hba' : lt b a = false := by revert hba; cases lt b a <;> simp
          have hhd : a = b := hconn a b hab' hba'
          subst hhd
          simp only [lexLt, hab', if_false, Bool.false_eq_true] at h12 h21
          rw [ih ys h12 h21]

/-- A proper prefix is strictly smaller in the Python list order. -/
theorem lexLt_of_proper_pfx (lt : α → α → Bool) (hi : ∀ a, lt a a = false) :
    ∀ l₁ l₂, l₁ <+: l₂ → l₁ ≠ l₂ → lexLt lt l₁ l₂ = true := by
  intro l₁
  induction l₁ with
  | nil =>
    intro l₂ _ hne
    cases l₂ with
    | nil => exact absurd rfl hne
    | cons b ys => simp [lexLt]
  | cons a xs ih =>
    intro l₂ hp hne
    obtain ⟨t, ht⟩ := hp
    cases l₂ with
    | nil => simp at ht
    | cons b ys =>
      have hhd : a = b := by
        have := congrArg (fun l => l.head?) ht
        simpa using this
      subst hhd
      have htl : xs ++ t = ys := by
        have := congrArg List.tail ht
        simpa using this
      have hxs : xs <+: ys := ⟨t, htl⟩
      have hne' : xs ≠ ys := by
        intro h
        exact hne (by rw [h])
      simp [lexLt, hi a, ih ys hxs hne']

/-- Sandwich: if `l₁ ≤ l₂ ≤ l₃` in the Python list order and `l₁` is a
prefix of `l₃`, then `l₁` is a prefix of `l₂`.  This is the reason the
hierarchical sort keeps every ancestor on the stack until all of its
descendants have been processed. -/
theorem lexLt_sandwich (lt : α → α → Bool)
    (hconn : ∀ a b, lt a b = false → lt b a = false → a = b) :
    ∀ l₁ l₂ l₃, lexLt lt l₂ l₁ = false → lexLt lt l₃ l₂ = false → l₁ <+: l₃ → l₁ <+: l₂ := by
  intro l₁
  induction l₁ with
  | nil => intro l₂ l₃ _ _ _; exact ⟨l₂, rfl⟩
  | cons a xs ih =>
    intro l₂ l₃ h21 h32 hp
    obtain ⟨t, ht⟩ := hp
    cases l₃ with
    | nil => simp at ht
    | cons c zs =>
      have hhd : a = c := by
        have := congrArg (fun l => l.head?) ht
        simpa using this
      subst hhd
      have htl : xs ++ t = zs := by
        have := congrArg List.tail ht
        simpa using this
      cases l₂ with
      | nil => simp [lexLt] at h21
      | cons b ys =>
        by_cases hba : lt b a = true
        · simp [lexLt, hba] at h21
        · have hba' : lt b a = false := by revert hba; cases lt b a <;> simp
          by_cases hab : lt a b = true
          · simp [lexLt, hab] at h32
          · have hab' : lt a b = false := by revert hab; cases lt a b <;> simp
            have hhd2 : a = b := hconn a b hab' hba'
            subst hhd2
            simp only [lexLt, hba', if_false, Bool.false_eq_true] at h21 h32
            have := ih ys zs h21 h32 ⟨t, htl⟩
            obtain ⟨u, hu⟩ := this
            exact ⟨u, by rw [List.cons_append, hu]⟩

/-!
## Path components

`str.split("/")` from `_SafeCheckoutOrder`'s sort key, modeled on the
character list of the string.  `splitOnChar` agrees with Python `split`:
splitting the empty string gives `[""]`, separators are never dropped.
-/

def splitOnChar (c : Char) : List Char → List (List Char)
  | [] => [[]]
  | x :: xs =>
    let r := splitOnChar c xs
    if x = c then [] :: r
    else
      match r with
      | [] => [[x]]
      | h :: t => (x :: h) :: t

theorem splitOnChar_ne_nil (c : Char) : ∀ l, splitOnChar c l ≠ [] := by
  intro l
  induction l with
  | nil => simp [splitOnChar]
  | cons x xs ih =>
    simp only [splitOnChar]
    by_cases hx : x = c
    · simp [hx]
    · simp only [hx, if_false]
      cases h : splitOnChar c xs with
      | nil => simp
      | cons hd tl => simp

/-- Inverse of `splitOnChar`: re-join the components with the separator. -/
def joinWithChar (c : Char) : List (List Char) → List Char
  | [] => []
  | [h] => h
  | h :: t => h ++ c :: joinWithChar c t

theorem joinWithChar_splitOnChar (c : Char) : ∀ l, joinWithChar c (splitOnChar c l) = l := by
  intro l
  induction l with
  | nil => rfl
  | cons x xs ih =>
    simp only [splitOnChar]
    by_cases hx : x = c
    · subst hx
      simp only [if_pos rfl]
      cases h : splitOnChar x xs with
      | nil => exact absurd h (splitOnChar_ne_nil x xs)
      | cons hd tl =>
        rw [h] at ih
        simpa [joinWithChar] using ih
    · simp only [hx, if_false]
      cases h : splitOnChar c xs with
      | nil => exact absurd h (splitOnChar_ne_nil c xs)
      | cons hd tl =>
        rw [h] at ih
        cases tl with
        | nil => simpa [joinWithChar] using ih
        | cons hd2 tl2 => simpa [joinWithChar] using ih

theorem splitOnChar_injective (c : Char) {l₁ l₂ : List Char}
    (h : splitOnChar c l₁ = splitOnChar c l₂) : l₁ = l₂ := by
  have := congrArg (joinWithChar c) h
  rwa [joinWithChar_splitOnChar, joinWithChar_splitOnChar] at this

/-- The component list of a relative path string: `relpath.split("/")`. -/
def pathKey (s : String) : List (List Char) := splitOnChar '/' s.data

theorem pathKey_injective : Function.Injective pathKey := by
  intro a b h
  have hdata : a.data = b.data := splitOnChar_injective '/' h
  cases a
  cases b
  exact congrArg String.mk hdata

/-!
## Comparison instances

Level one: Python `str` comparison = code-point order on the character
lists.  Level two: Python `list[str]` comparison, used as the sort key
order in `_SafeCheckoutOrder`.
-/

def charLt (a b : Char) : Bool := decide (a < b)

theorem charLt_irrefl (a : Char) : charLt a a = false := by simp [charLt]

theorem charLt_trans (a b c : Char) (h1 : charLt a b = true) (h2 : charLt b c = true) :
    charLt a c = true := by
  simp only [charLt, decide_eq_true_eq] at h1 h2 ⊢
  exact lt_trans h1 h2

theorem charLt_conn (a b : Char) (h1 : charLt a b = false) (h2 : charLt b a = false) : a = b := by
  simp only [charLt, decide_eq_false_iff_not] at h1 h2
  exact le_antisymm (le_of_not_lt h2) (le_of_not_lt h1)

/-- Python `str` `<`. -/
def charSeqLt : List Char → List Char → Bool := lexLt charLt

theorem charSeqLt_irrefl (l : List Char) : charSeqLt l l = false :=
  lexLt_irrefl charLt charLt_irrefl l

theorem charSeqLt_trans (l₁ l₂ l₃ : List Char) (h1 : charSeqLt l₁ l₂ = true)
    (h2 : charSeqLt l₂ l₃ = true) : charSeqLt l₁ l₃ = true :=
  lexLt_trans charLt charLt_trans charLt_conn l₁ l₂ l₃ h1 h2

theorem charSeqLt_conn (l₁ l₂ : List Char) (h1 : charSeqLt l₁ l₂ = false)
    (h2 : charSeqLt l₂ l₁ = false) : l₁ = l₂ :=
  lexLt_conn charLt charLt_conn l₁ l₂ h1 h2

/-- Python `list[str]` `<`, the `_SafeCheckoutOrder` sort key order. -/
def compLt : List (List Char) → List (List Char) → Bool := lexLt charSeqLt

theorem compLt_irrefl (l : List (List Char)) : compLt l l = false :=
  lexLt_irrefl charSeqLt charSeqLt_irrefl l

theorem compLt_trans (l₁ l₂ l₃ : List (List Char)) (h1 : compLt l₁ l₂ = true)
    (h2 : compLt l₂ l₃ = true) : compLt l₁ l₃ = true :=
  lexLt_trans charSeqLt charSeqLt_trans charSeqLt_conn l₁ l₂ l₃ h1 h2

theorem compLt_conn (l₁ l₂ : List (List Char)) (h1 : compLt l₁ l₂ = false)
    (h2 : compLt l₂ l₁ = false) : l₁ = l₂ :=
  lexLt_conn charSeqLt charSeqLt_conn l₁ l₂ h1 h2

theorem compLt_of_proper_pfx {l₁ l₂ : List (List Char)} (hp : l₁ <+: l₂) (hne : l₁ ≠ l₂) :
    compLt l₁ l₂ = true :=
  lexLt_of_proper_pfx charSeqLt charSeqLt_irrefl l₁ l₂ hp hne

theorem compLt_sandwich {l₁ l₂ l₃ : List (List Char)} (h21 : compLt l₂ l₁ = false)
    (h32 : compLt l₃ l₂ = false) (hp : l₁ <+: l₃) : l₁ <+: l₂ :=
  lexLt_sandwich charSeqLt charSeqLt_conn l₁ l₂ l₃ h21 h32 hp

theorem compLt_asymm {l₁ l₂ : List (List Char)} (h : compLt l₁ l₂ = true) :
    compLt l₂ l₁ = false := by
  by_contra hc
  have hc' : compLt l₂ l₁ = true := by revert hc; cases compLt l₂ l₁ <;> simp
  have := compLt_trans l₁ l₂ l₁ h hc'
  rw [compLt_irrefl l₁] at this
  exact Bool.false_ne_true this

/-!
## Project data model

The attributes of the external `Project` entity that the sync scheduler
reads (§3 of the spec): stable `name`, workspace-relative `relpath`,
per-project `gitdir`, shareable `objdir`.
-/

structure Project where
  name : String
  relpath : String
  gitdir : String
  objdir : String
  deriving DecidableEq, Repr

/-- Sort key of `_SafeCheckoutOrder`: `x.relpath.split("/")`. -/
def pKey (p : Project) : List (List Char) := pathKey p.relpath

/-!
## `_SafeCheckoutOrder` (sync.py lines 92-132)

```python
res = [[]]
depth_stack = []
for checkout in sorted(checkouts, key=lambda x: x.relpath.split("/")):
    checkout_path = Path(checkout.relpath)
    while depth_stack:
        try:
            checkout_path.relative_to(depth_stack[-1])
        except ValueError:
            depth_stack.pop()
        else:
            if len(depth_stack) >= len(res):
                res.append([])
            break
    current = res[len(depth_stack)]
    current.append(checkout)
    depth_stack.append(checkout_path)
return res
```

The stack is kept top-first (`depth_stack[-1]` is the head).
`checkout_path.relative_to(base)` succeeds exactly when the component list
of `base` is a prefix of the component list of `checkout_path` (the
relpaths handled here are normalized POSIX relative paths).  The
`res.append([])` of the Python code fires only when the `while` loop
breaks with `len(depth_stack) >= len(res)`; when the loop instead exhausts
the stack, `len(depth_stack) = 0 < len(res)`, so folding the append into a
single length test after the pops is equivalent.
-/

/-- The `while depth_stack:` loop: pop entries that are not a prefix of
the current path `k`; stop at the first prefix (or empty the stack). -/
def popStack (k : List (List Char)) : List (List (List Char)) → List (List (List Char))
  | [] => []
  | top :: rest => if top <+: k then top :: rest else popStack k rest

/-- `res[i].append(c)`: append `c` to the `i`-th level in place. -/
def appendAt : Nat → Project → List (List Project) → List (List Project)
  | _, _, [] => []
  | 0, c, l :: ls => (l ++ [c]) :: ls
  | n + 1, c, l :: ls => l :: appendAt n c ls

structure SCOState where
  res : List (List Project)
  stack : List (List (List Char))
  deriving Repr

/-- One iteration of the `for checkout in sorted(...)` loop: pop the
stack, grow `res` by one level when the break fires at full depth, place
the checkout at index `len(depth_stack)`, push its path. -/
def scoStep (st : SCOState) (c : Project) : SCOState :=
  ⟨appendAt (popStack (pKey c) st.stack).length c
      (if st.res.length ≤ (popStack (pKey c) st.stack).length then st.res ++ [[]] else st.res),
    pKey c :: popStack (pKey c) st.stack⟩

/-- The hierarchical sort `sorted(checkouts, key=lambda x: x.relpath.split("/"))`.
Python's `sorted` is a stable sort by this key; since the scheduler only
ever passes manifests whose relpaths (hence keys) are pairwise distinct,
any sort agreeing with the key order produces the same list. -/
def hierLe (a b : Project) : Prop := compLt (pKey b) (pKey a) = false

instance : DecidableRel hierLe := fun a b => by
  unfold hierLe
  infer_instance

instance : IsTotal Project hierLe := by
  constructor
  intro a b
  by_cases h : compLt (pKey b) (pKey a) = true
  · exact Or.inr (compLt_asymm h)
  · exact Or.inl (by revert h; unfold hierLe; cases compLt (pKey b) (pKey a) <;> simp)

instance : IsTrans Project hierLe := by
  constructor
  intro a b c hab hbc
  unfold hierLe at hab hbc ⊢
  by_contra hac
  have hac' : compLt (pKey c) (pKey a) = true := by
    revert hac; cases compLt (pKey c) (pKey a) <;> simp
  by_cases hba : compLt (pKey a) (pKey b) = true
  · have := compLt_trans _ _ _ hac' hba
    rw [hbc] at this
    exact Bool.false_ne_true this
  · have hba' : compLt (pKey a) (pKey b) = false := by
      revert hba; cases compLt (pKey a) (pKey b) <;> simp
    have heq : pKey b = pKey a := compLt_conn _ _ hab hba'
    rw [heq] at hbc
    rw [hbc] at hac'
    exact Bool.false_ne_true hac'

def hierSorted (checkouts : List Project) : List Project :=
  List.insertionSort hierLe checkouts

/-- `_SafeCheckoutOrder(checkouts)` (sync.py line 92). -/
def _SafeCheckoutOrder (checkouts : List Project) : List (List Project) :=
  ((hierSorted checkouts).foldl scoStep ⟨[[]], []⟩).res

/-! Concrete projects used by the boundary-behavior claims. -/

def pFoo : Project := ⟨"foo", "foo", "g1", "o1"⟩

def pFooDash : Project := ⟨"foo-bar", "foo-bar", "g2", "o2"⟩

def pFooSlash : Project := ⟨"foo/bar", "foo/bar", "g3", "o3"⟩

/-- Claim C1, counterexample: the resolver applied to the empty list does
not return the empty list of levels — `res` is initialized to `[[]]` and
the loop body never runs, so the result is a single empty level. -/
theorem c1_resolve_empty_counterexample :
    _SafeCheckoutOrder [] ≠ ([] : List (List Project)) := by decide

/-- Claim C1, amended: the resolver applied to the empty list of projects
returns one empty level `[[]]` (not `[]`), and applied to a single project
`x` returns exactly one level containing only `x`. -/
theorem c1_resolve_empty_and_singleton_amended :
    _SafeCheckoutOrder [] = [[]] ∧ ∀ x : Project, _SafeCheckoutOrder [x] = [[x]] :=
  ⟨rfl, fun _ => rfl⟩

/-- Claim C2: the resolver orders hierarchically (relpath split on `/`),
not lexicographically: on projects with relpaths `foo`, `foo-bar`,
`foo/bar` it returns exactly two levels, the first containing `foo` and
`foo-bar`, the second containing `foo/bar`. -/
theorem c2_resolve_hierarchical :
    _SafeCheckoutOrder [pFoo, pFooDash, pFooSlash] = [[pFoo, pFooDash], [pFooSlash]] := by
  decide

/-!
## Topological-order invariant of `_SafeCheckoutOrder` (claim C3)

The proof follows the loop: the stack is always a chain of proper path
extensions (top extends everything below it); every stack entry was
assigned the level equal to its depth from the bottom of the stack; an
ancestor of a yet-unprocessed project can never be popped, because the
sort order sandwiches every intermediate key between the ancestor and its
descendant, forcing it to extend the ancestor.
-/

theorem popStack_suffix (k : List (List Char)) : ∀ s, popStack k s <:+ s := by
  intro s
  induction s with
  | nil => exact List.suffix_rfl
  | cons top rest ih =>
    simp only [popStack]
    by_cases h : top <+: k
    · rw [if_pos h]
    · rw [if_neg h]
      exact ih.trans (List.suffix_cons top rest)

theorem popStack_mem (k : List (List Char)) :
    ∀ s (a : List (List Char)), a ∈ s → a <+: k → a ∈ popStack k s := by
  intro s
  induction s with
  | nil => intro a h _; exact absurd h (List.not_mem_nil a)
  | cons top rest ih =>
    intro a hmem hpk
    simp only [popStack]
    by_cases h : top <+: k
    · rw [if_pos h]; exact hmem
    · rw [if_neg h]
      rcases List.mem_cons.mp hmem with rfl | hmem'
      · exact absurd hpk h
      · exact ih a hmem' hpk

theorem popStack_head (k : List (List Char)) :
    ∀ s, popStack k s = [] ∨ ∃ t ts, popStack k s = t :: ts ∧ t <+: k := by
  intro s
  induction s with
  | nil => exact Or.inl rfl
  | cons top rest ih =>
    simp only [popStack]
    by_cases h : top <+: k
    · exact Or.inr ⟨top, rest, by rw [if_pos h], h⟩
    · rw [if_neg h]; exact ih

/-- Relation along the stack, top-first: the entry below is a proper
prefix of the entry above. -/
def StrictExt (a b : List (List Char)) : Prop := b <+: a ∧ b ≠ a

instance : IsTrans (List (List Char)) StrictExt := by
  constructor
  intro a b c hab hbc
  refine ⟨hbc.1.trans hab.1, ?_⟩
  intro hca
  subst hca
  exact hbc.2 (hab.1.sublist.antisymm hbc.1.sublist).symm

theorem stackChain_nodup {s : List (List (List Char))} (h : List.Chain' StrictExt s) :
    s.Nodup := by
  have hp : List.Pairwise StrictExt s := List.chain'_iff_pairwise.mp h
  exact hp.imp (fun hab => Ne.symm hab.2)

theorem appendAt_length (c : Project) : ∀ (i : Nat) (l : List (List Project)),
    (appendAt i c l).length = l.length := by
  intro i
  induction i with
  | zero => intro l; cases l <;> simp [appendAt]
  | succ n ih =>
    intro l
    cases l with
    | nil => simp [appendAt]
    | cons h t => simp [appendAt, ih]

theorem appendAt_flatten_perm (c : Project) :
    ∀ (i : Nat) (l : List (List Project)), i < l.length →
      ((appendAt i c l).flatten).Perm (c :: l.flatten) := by
  intro i
  induction i with
  | zero =>
    intro l hl
    cases l with
    | nil => simp at hl
    | cons h t =>
      simp only [appendAt, List.flatten_cons]
      have h1 : (h ++ [c]) ++ t.flatten = h ++ c :: t.flatten := by
        rw [List.append_assoc, List.singleton_append]
      rw [h1]
      exact List.perm_middle
  | succ n ih =>
    intro l hl
    cases l with
    | nil => simp at hl
    | cons h t =>
      simp only [appendAt, List.flatten_cons]
      have hn : n < t.length := by simpa using hl
      have ha : (h ++ (appendAt n c t).flatten).Perm (h ++ c :: t.flatten) :=
        List.Perm.append_left h (ih t hn)
      exact ha.trans List.perm_middle

theorem appendAt_mem_self (c : Project) :
    ∀ (i : Nat) (l : List (List Project)), i < l.length →
      c ∈ (appendAt i c l).getD i [] := by
  intro i
  induction i with
  | zero =>
    intro l hl
    cases l with
    | nil => simp at hl
    | cons h t => simp [appendAt]
  | succ n ih =>
    intro l hl
    cases l with
    | nil => simp at hl
    | cons h t =>
      simp only [appendAt, List.getD_cons_succ]
      exact ih t (by simpa using hl)

theorem appendAt_mem_mono (c x : Project) :
    ∀ (i n : Nat) (l : List (List Project)), x ∈ l.getD n [] →
      x ∈ (appendAt i c l).getD n [] := by
  intro i
  induction i with
  | zero =>
    intro n l hx
    cases l with
    | nil => simp at hx
    | cons h t =>
      cases n with
      | zero =>
        simp only [appendAt, List.getD_cons_zero] at hx ⊢
        exact List.mem_append_left [c] hx
      | succ m => simpa [appendAt] using hx
  | succ k ih =>
    intro n l hx
    cases l with
    | nil => simp at hx
    | cons h t =>
      cases n with
      | zero => simpa [appendAt] using hx
      | succ m =>
        simp only [appendAt, List.getD_cons_succ] at hx ⊢
        exact ih m t hx

theorem getD_append_empty_mono (x : Project) (l : List (List Project)) (n : Nat)
    (hx : x ∈ l.getD n []) : x ∈ (l ++ [[]]).getD n [] := by
  by_cases h : n < l.length
  · rw [List.getD_eq_getElem?_getD, List.getElem?_append_left h, ← List.getD_eq_getElem?_getD]
    exact hx
  · rw [List.getD_eq_default _ _ (le_of_not_lt h)] at hx
    simp at hx

theorem scoStep_mem_mono (st : SCOState) (c x : Project) (n : Nat)
    (hx : x ∈ st.res.getD n []) : x ∈ (scoStep st c).res.getD n [] := by
  show x ∈ (appendAt _ c _).getD n []
  apply appendAt_mem_mono
  by_cases h : st.res.length ≤ (popStack (pKey c) st.stack).length
  · rw [if_pos h]; exact getD_append_empty_mono x st.res n hx
  · rw [if_neg h]; exact hx

theorem foldl_mem_mono (x : Project) (n : Nat) :
    ∀ (L : List Project) (st : SCOState), x ∈ st.res.getD n [] →
      x ∈ (L.foldl scoStep st).res.getD n [] := by
  intro L
  induction L with
  | nil => intro st hx; exact hx
  | cons c L' ih =>
    intro st hx
    exact ih (scoStep st c) (scoStep_mem_mono st c x n hx)

/-- Basic well-formedness of the loop state: `res` is never empty and the
stack is never deeper than the number of levels. -/
def WF (st : SCOState) : Prop := st.res ≠ [] ∧ st.stack.length ≤ st.res.length

/-- The level index the current project is placed at is always in range
(after the conditional `res.append([])`). -/
theorem sco_idx_lt (st : SCOState) (c : Project) (hwf : WF st) :
    (popStack (pKey c) st.stack).length <
      (if st.res.length ≤ (popStack (pKey c) st.stack).length then st.res ++ [[]]
        else st.res).length := by
  have hsl : (popStack (pKey c) st.stack).length ≤ st.stack.length :=
    (popStack_suffix (pKey c) st.stack).length_le
  have hsr : (popStack (pKey c) st.stack).length ≤ st.res.length := le_trans hsl hwf.2
  by_cases h : st.res.length ≤ (popStack (pKey c) st.stack).length
  · rw [if_pos h]
    have : (popStack (pKey c) st.stack).length = st.res.length := le_antisymm hsr h
    simp [this]
  · rw [if_neg h]
    exact lt_of_not_ge h

theorem scoStep_wf (st : SCOState) (c : Project) (hwf : WF st) : WF (scoStep st c) := by
  constructor
  · have h1 := sco_idx_lt st c hwf
    have h2 : (scoStep st c).res.length =
        (if st.res.length ≤ (popStack (pKey c) st.stack).length then st.res ++ [[]]
          else st.res).length := appendAt_length c _ _
    rw [← List.length_pos, h2]
    exact Nat.lt_of_le_of_lt (Nat.zero_le _) h1
  · show (pKey c :: popStack (pKey c) st.stack).length ≤ (appendAt _ c _).length
    rw [appendAt_length, List.length_cons]
    exact Nat.succ_le_of_lt (sco_idx_lt st c hwf)

theorem res'_flatten_eq (st : SCOState) (c : Project) :
    (if st.res.length ≤ (popStack (pKey c) st.stack).length then st.res ++ [[]]
      else st.res).flatten = st.res.flatten := by
  by_cases h : st.res.length ≤ (popStack (pKey c) st.stack).length
  · rw [if_pos h, List.flatten_append]; simp
  · rw [if_neg h]

/-- Each loop iteration adds exactly the processed project to the levels. -/
theorem scoStep_flatten_perm (st : SCOState) (c : Project) (hwf : WF st) :
    ((scoStep st c).res.flatten).Perm (c :: st.res.flatten) := by
  have h1 := appendAt_flatten_perm c (popStack (pKey c) st.stack).length _ (sco_idx_lt st c hwf)
  rw [res'_flatten_eq st c] at h1
  exact h1

/-- The flattened output is the input list, up to order. -/
theorem foldl_flatten_perm :
    ∀ (L : List Project) (st : SCOState), WF st →
      (((L.foldl scoStep st).res.flatten)).Perm (st.res.flatten ++ L) := by
  intro L
  induction L with
  | nil => intro st _; simp
  | cons c L' ih =>
    intro st hwf
    have h1 : ((L'.foldl scoStep (scoStep st c)).res.flatten).Perm
        ((scoStep st c).res.flatten ++ L') := ih (scoStep st c) (scoStep_wf st c hwf)
    have h2 : ((scoStep st c).res.flatten ++ L').Perm ((c :: st.res.flatten) ++ L') :=
      List.Perm.append_right L' (scoStep_flatten_perm st c hwf)
    have h3 : ((c :: st.res.flatten) ++ L').Perm (st.res.flatten ++ c :: L') := by
      rw [List.cons_append]
      exact List.perm_middle.symm
    rw [List.foldl_cons]
    exact (h1.trans h2).trans h3

/-- Loop invariant relating the state to the remaining (sorted) input `L`:
the stack is a proper-extension chain no deeper than `res`; every stack
entry is a key of an already-processed project, hence at most every future
key in the sort order and distinct from all future keys; `L` itself is
sorted with pairwise-distinct keys. -/
structure Inv (st : SCOState) (L : List Project) : Prop where
  resNe : st.res ≠ []
  stackLen : st.stack.length ≤ st.res.length
  chain : List.Chain' StrictExt st.stack
  stackLe : ∀ a ∈ st.stack, ∀ r ∈ L, compLt (pKey r) a = false
  stackNeFut : ∀ a ∈ st.stack, ∀ r ∈ L, a ≠ pKey r
  sortedL : List.Pairwise hierLe L
  nodupKeys : (L.map pKey).Nodup

theorem Inv.wf {st : SCOState} {L : List Project} (h : Inv st L) : WF st :=
  ⟨h.resNe, h.stackLen⟩

theorem scoStep_inv (st : SCOState) (c : Project) (L' : List Project)
    (h : Inv st (c :: L')) : Inv (scoStep st c) L' := by
  have hss : popStack (pKey c) st.stack <:+ st.stack := popStack_suffix (pKey c) st.stack
  have hsub : ∀ a ∈ popStack (pKey c) st.stack, a ∈ st.stack := fun a ha =>
    hss.sublist.subset ha
  have hwf' := scoStep_wf st c h.wf
  refine ⟨hwf'.1, hwf'.2, ?_, ?_, ?_, ?_, ?_⟩
  · -- chain
    show List.Chain' StrictExt (pKey c :: popStack (pKey c) st.stack)
    refine List.Chain'.cons' (h.chain.suffix hss) ?_
    intro y hy
    rcases popStack_head (pKey c) st.stack with hists | ⟨t, ts, hts, htp⟩
    · rw [hists] at hy; simp at hy
    · rw [hts] at hy
      simp only [List.head?_cons, Option.mem_def, Option.some.injEq] at hy
      subst hy
      refine ⟨htp, ?_⟩
      have hmem : t ∈ st.stack := hsub t (by rw [hts]; exact List.mem_cons_self t ts)
      exact h.stackNeFut t hmem c (List.mem_cons_self c L')
  · -- stackLe
    intro a ha r hr
    rcases List.mem_cons.mp ha with rfl | ha'
    · exact (List.pairwise_cons.mp h.sortedL).1 r hr
    · exact h.stackLe a (hsub a ha') r (List.mem_cons_of_mem c hr)
  · -- stackNeFut
    intro a ha r hr
    rcases List.mem_cons.mp ha with rfl | ha'
    · intro heq
      have hn := h.nodupKeys
      rw [List.map_cons, List.nodup_cons] at hn
      exact hn.1 (heq ▸ List.mem_map_of_mem pKey hr)
    · exact h.stackNeFut a (hsub a ha') r (List.mem_cons_of_mem c hr)
  · -- sortedL
    exact (List.pairwise_cons.mp h.sortedL).2
  · -- nodupKeys
    have hn := h.nodupKeys
    rw [List.map_cons, List.nodup_cons] at hn
    exact hn.2

theorem runFrom_inv : ∀ (L₁ L₂ : List Project) (st : SCOState),
    Inv st (L₁ ++ L₂) → Inv (L₁.foldl scoStep st) L₂ := by
  intro L₁
  induction L₁ with
  | nil => intro L₂ st h; exact h
  | cons c L₁' ih =>
    intro L₂ st h
    rw [List.foldl_cons]
    exact ih L₂ (scoStep st c) (scoStep_inv st c (L₁' ++ L₂) h)

/-- A stack entry that is a prefix of the incoming key keeps its
bottom-index across the pops. -/
theorem tracked_popStack (s : List (List (List Char))) (hch : List.Chain' StrictExt s)
    (k kA : List (List Char)) (i : Nat)
    (hget : s.reverse[i]? = some kA) (hpk : kA <+: k) :
    (popStack k s).reverse[i]? = some kA := by
  have hmemrev : kA ∈ s.reverse := by
    obtain ⟨hlt, hv⟩ := List.getElem?_eq_some.mp hget
    exact hv ▸ List.getElem_mem hlt
  have hmem : kA ∈ s := by simpa using hmemrev
  have hmem' : kA ∈ popStack k s := popStack_mem k s kA hmem hpk
  have hmemrev' : kA ∈ (popStack k s).reverse := by simpa using hmem'
  have hpfx : (popStack k s).reverse <+: s.reverse :=
    List.reverse_prefix.mpr (popStack_suffix k s)
  have hnd : s.reverse.Nodup := List.nodup_reverse.mpr (stackChain_nodup hch)
  obtain ⟨n, hn⟩ := List.getElem?_of_mem hmemrev'
  have hnlt : n < (popStack k s).reverse.length := (List.getElem?_eq_some.mp hn).1
  have hfull : s.reverse[n]? = some kA := by
    obtain ⟨t, ht⟩ := hpfx
    rw [← ht, List.getElem?_append_left hnlt]
    exact hn
  have hilt : i < s.reverse.length := (List.getElem?_eq_some.mp hget).1
  have : i = n := List.getElem?_inj hilt hnd (by rw [hget, hfull])
  rw [this]
  exact hn

/-- Once an ancestor `A` of a future project `B` sits on the stack at
bottom-index `i` with `A` placed in level `i`, running the rest of the
loop places `B` in a strictly later level, and `A` stays in level `i`. -/
theorem runFrom_tracked (A B : Project) :
    ∀ (L : List Project) (st : SCOState) (i : Nat),
      Inv st L → B ∈ L →
      st.stack.reverse[i]? = some (pKey A) →
      A ∈ st.res.getD i [] →
      pKey A <+: pKey B →
      ∃ j, i < j ∧ A ∈ ((L.foldl scoStep st).res.getD i []) ∧
        B ∈ ((L.foldl scoStep st).res.getD j []) := by
  intro L
  induction L with
  | nil =>
    intro st i _ hB
    simp at hB
  | cons c L' ih =>
    intro st i hinv hB hget hAres hpfx
    have hmemA : pKey A ∈ st.stack := by
      have h1 : pKey A ∈ st.stack.reverse := by
        obtain ⟨hlt, hv⟩ := List.getElem?_eq_some.mp hget
        exact hv ▸ List.getElem_mem hlt
      simpa using h1
    rcases List.mem_cons.mp hB with heq | hB'
    · -- the head of the remaining input is B itself
      subst heq
      have hpop : (popStack (pKey B) st.stack).reverse[i]? = some (pKey A) :=
        tracked_popStack st.stack hinv.chain (pKey B) (pKey A) i hget hpfx
      have hilt : i < (popStack (pKey B) st.stack).length := by
        have := (List.getElem?_eq_some.mp hpop).1
        simpa using this
      have hBmem : B ∈ (scoStep st B).res.getD (popStack (pKey B) st.stack).length [] :=
        appendAt_mem_self B _ _ (sco_idx_lt st B hinv.wf)
      have hAmem : A ∈ (scoStep st B).res.getD i [] := scoStep_mem_mono st B A i hAres
      refine ⟨(popStack (pKey B) st.stack).length, hilt, ?_, ?_⟩
      · rw [List.foldl_cons]
        exact foldl_mem_mono A i L' (scoStep st B) hAmem
      · rw [List.foldl_cons]
        exact foldl_mem_mono B _ L' (scoStep st B) hBmem
    · -- the head c is sandwiched between A and B, so A stays tracked
      have hca : compLt (pKey c) (pKey A) = false :=
        hinv.stackLe (pKey A) hmemA c (List.mem_cons_self c L')
      have hbc : compLt (pKey B) (pKey c) = false :=
        (List.pairwise_cons.mp hinv.sortedL).1 B hB'
      have hpfxc : pKey A <+: pKey c := compLt_sandwich hca hbc hpfx
      have hpop : (popStack (pKey c) st.stack).reverse[i]? = some (pKey A) :=
        tracked_popStack st.stack hinv.chain (pKey c) (pKey A) i hget hpfxc
      have hget₂ : (scoStep st c).stack.reverse[i]? = some (pKey A) := by
        show (pKey c :: popStack (pKey c) st.stack).reverse[i]? = some (pKey A)
        rw [List.reverse_cons]
        have hilt : i < (popStack (pKey c) st.stack).reverse.length :=
          (List.getElem?_eq_some.mp hpop).1
        rw [List.getElem?_append_left hilt]
        exact hpop
      have hAres₂ : A ∈ (scoStep st c).res.getD i [] := scoStep_mem_mono st c A i hAres
      have hinv₂ : Inv (scoStep st c) L' := scoStep_inv st c L' hinv
      rw [List.foldl_cons]
      exact ih (scoStep st c) i hinv₂ hB' hget₂ hAres₂ hpfx

/-- In a sorted list, a strictly smaller element can be split off before a
strictly larger one. -/
theorem sorted_mem_split (A B : Project) :
    ∀ L : List Project, A ∈ L → B ∈ L → compLt (pKey A) (pKey B) = true →
      List.Pairwise hierLe L → ∃ L₁ L₂, L = L₁ ++ A :: L₂ ∧ B ∈ L₂ := by
  intro L
  induction L with
  | nil => intro hA; simp at hA
  | cons x L' ih =>
    intro hA hB hlt hs
    by_cases hxA : x = A
    · subst hxA
      have hne : B ≠ x := by
        intro h
        subst h
        rw [compLt_irrefl] at hlt
        exact Bool.false_ne_true hlt
      rcases List.mem_cons.mp hB with h | h
      · exact absurd h hne
      · exact ⟨[], L', rfl, h⟩
    · have hA' : A ∈ L' := by
        rcases List.mem_cons.mp hA with h | h
        · exact absurd h.symm hxA
        · exact h
      have hB' : B ∈ L' := by
        rcases List.mem_cons.mp hB with h | h
        · exfalso
          subst h
          have hle : compLt (pKey A) (pKey B) = false :=
            (List.pairwise_cons.mp hs).1 A hA'
          rw [hle] at hlt
          exact Bool.false_ne_true hlt
        · exact h
      obtain ⟨L₁, L₂, hsplit, hBL₂⟩ := ih hA' hB' hlt (List.pairwise_cons.mp hs).2
      exact ⟨x :: L₁, L₂, by rw [hsplit, List.cons_append], hBL₂⟩

/-- With pairwise-disjoint nonoverlapping levels, a project determines its
level index. -/
theorem getD_level_unique (out : List (List Project)) (hnd : out.flatten.Nodup)
    (x : Project) (i j : Nat) (hi : x ∈ out.getD i []) (hj : x ∈ out.getD j []) : i = j := by
  have hi' : i < out.length := by
    by_contra h
    rw [List.getD_eq_default _ _ (le_of_not_lt h)] at hi
    simp at hi
  have hj' : j < out.length := by
    by_contra h
    rw [List.getD_eq_default _ _ (le_of_not_lt h)] at hj
    simp at hj
  rw [List.getD_eq_getElem _ _ hi'] at hi
  rw [List.getD_eq_getElem _ _ hj'] at hj
  have hpd : List.Pairwise List.Disjoint out := (List.nodup_flatten.mp hnd).2
  rcases Nat.lt_trichotomy i j with h | h | h
  · exfalso
    have hd := List.pairwise_iff_get.mp hpd ⟨i, hi'⟩ ⟨j, hj'⟩ h
    rw [List.get_eq_getElem, List.get_eq_getElem] at hd
    exact hd hi hj
  · exact h
  · exfalso
    have hd := List.pairwise_iff_get.mp hpd ⟨j, hj'⟩ ⟨i, hi'⟩ h
    rw [List.get_eq_getElem, List.get_eq_getElem] at hd
    exact hd hj hi

/-- `a` is an ancestor directory of `b`: splitting both on `/`, the
components of `a` form a proper prefix of the components of `b`. -/
def ancestorDir (a b : String) : Prop := pathKey a <+: pathKey b ∧ pathKey a ≠ pathKey b

/-- Claim C3: for every input list of projects (with the manifest
invariant that relpaths are pairwise distinct), flattening the resolver's
output in level order is a topological sort of the ancestor-descendant
relation: whenever `A.relpath` is an ancestor directory of `B.relpath`,
`A` is placed in a strictly earlier level than `B`. -/
theorem c3_resolver_topological (checkouts : List Project)
    (hnd : (checkouts.map Project.relpath).Nodup)
    (A B : Project) (hanc : ancestorDir A.relpath B.relpath)
    (i j : Nat)
    (hA : A ∈ (_SafeCheckoutOrder checkouts).getD i [])
    (hB : B ∈ (_SafeCheckoutOrder checkouts).getD j []) :
    i < j := by
  obtain ⟨hpfx, hne⟩ := hanc
  have hpfx' : pKey A <+: pKey B := hpfx
  have hne' : pKey A ≠ pKey B := hne
  set L := hierSorted checkouts with hL
  have hperm : L.Perm checkouts := List.perm_insertionSort hierLe checkouts
  -- distinct keys on the sorted list
  have hndK : (checkouts.map pKey).Nodup := by
    have h1 : ((checkouts.map Project.relpath).map pathKey).Nodup :=
      List.Nodup.map pathKey_injective hnd
    rw [List.map_map] at h1
    exact h1
  have hndKL : (L.map pKey).Nodup := ((hperm.map pKey).nodup_iff).mpr hndK
  have hinv0 : Inv ⟨[[]], []⟩ L := by
    refine ⟨by simp, by simp, List.chain'_nil, ?_, ?_, ?_, hndKL⟩
    · intro a ha; simp at ha
    · intro a ha; simp at ha
    · exact List.sorted_insertionSort hierLe checkouts
  have hwf0 : WF ⟨[[]], []⟩ := hinv0.wf
  -- the flattened output is a permutation of L
  have hout : _SafeCheckoutOrder checkouts = (L.foldl scoStep ⟨[[]], []⟩).res := rfl
  have hfl : ((L.foldl scoStep ⟨[[]], []⟩).res.flatten).Perm L := by
    have h1 := foldl_flatten_perm L ⟨[[]], []⟩ hwf0
    simpa using h1
  have hndL : L.Nodup := List.Nodup.of_map pKey hndKL
  have hndFl : (L.foldl scoStep ⟨[[]], []⟩).res.flatten.Nodup := hfl.nodup_iff.mpr hndL
  -- membership of A and B in L
  have hmemFlA : A ∈ (L.foldl scoStep ⟨[[]], []⟩).res.flatten := by
    have hi' : i < (L.foldl scoStep ⟨[[]], []⟩).res.length := by
      by_contra h
      rw [hout, List.getD_eq_default _ _ (le_of_not_lt h)] at hA
      simp at hA
    rw [List.mem_flatten]
    refine ⟨(L.foldl scoStep ⟨[[]], []⟩).res.getD i [], ?_, by rw [← hout]; exact hA⟩
    rw [List.getD_eq_getElem _ _ hi']
    exact List.getElem_mem hi'
  have hmemFlB : B ∈ (L.foldl scoStep ⟨[[]], []⟩).res.flatten := by
    have hj' : j < (L.foldl scoStep ⟨[[]], []⟩).res.length := by
      by_contra h
      rw [hout, List.getD_eq_default _ _ (le_of_not_lt h)] at hB
      simp at hB
    rw [List.mem_flatten]
    refine ⟨(L.foldl scoStep ⟨[[]], []⟩).res.getD j [], ?_, by rw [← hout]; exact hB⟩
    rw [List.getD_eq_getElem _ _ hj']
    exact List.getElem_mem hj'
  have hAL : A ∈ L := hfl.subset hmemFlA
  have hBL : B ∈ L := hfl.subset hmemFlB
  -- split the sorted list at A, with B strictly later
  have hlt : compLt (pKey A) (pKey B) = true := compLt_of_proper_pfx hpfx' hne'
  obtain ⟨L₁, L₂, hsplit, hBL₂⟩ := sorted_mem_split A B L hAL hBL hlt hinv0.sortedL
  -- run the loop through L₁, then process A
  have hinv₁ : Inv (L₁.foldl scoStep ⟨[[]], []⟩) (A :: L₂) := by
    apply runFrom_inv
    rw [← hsplit]
    exact hinv0
  set st₁ := L₁.foldl scoStep ⟨[[]], []⟩ with hst₁
  set iA := (popStack (pKey A) st₁.stack).length with hiA
  have hget₂ : (scoStep st₁ A).stack.reverse[iA]? = some (pKey A) := by
    show (pKey A :: popStack (pKey A) st₁.stack).reverse[iA]? = some (pKey A)
    rw [List.reverse_cons, hiA, ← List.length_reverse (popStack (pKey A) st₁.stack)]
    exact List.getElem?_concat_length _ _
  have hAres₂ : A ∈ (scoStep st₁ A).res.getD iA [] :=
    appendAt_mem_self A _ _ (sco_idx_lt st₁ A hinv₁.wf)
  have hinv₂ : Inv (scoStep st₁ A) L₂ := scoStep_inv st₁ A L₂ hinv₁
  obtain ⟨jB, hij, hAfin, hBfin⟩ :=
    runFrom_tracked A B L₂ (scoStep st₁ A) iA hinv₂ hBL₂ hget₂ hAres₂ hpfx'
  -- identify the final state with the full run
  have hrun : L.foldl scoStep ⟨[[]], []⟩ = L₂.foldl scoStep (scoStep st₁ A) := by
    rw [hsplit, List.foldl_append, List.foldl_cons]
  -- pin down i and j
  have hiEq : i = iA := by
    apply getD_level_unique _ hndFl A
    · rw [← hout]; exact hA
    · rw [hrun]; exact hAfin
  have hjEq : j = jB := by
    apply getD_level_unique _ hndFl B
    · rw [← hout]; exact hB
    · rw [hrun]; exact hBfin
  rw [hiEq, hjEq]
  exact hij

/-- Witness for C3: in the two-project manifest `foo`, `foo/bar` the
ancestor `foo` lands in level 0 and the descendant `foo/bar` in level 1,
and the theorem applies to give `0 < 1`. -/
theorem c3_resolver_topological_witness :
    ([pFoo, pFooSlash].map Project.relpath).Nodup ∧
      ancestorDir pFoo.relpath pFooSlash.relpath ∧
      pFoo ∈ (_SafeCheckoutOrder [pFoo, pFooSlash]).getD 0 [] ∧
      pFooSlash ∈ (_SafeCheckoutOrder [pFoo, pFooSlash]).getD 1 [] ∧
      (0 : Nat) < 1 := by
  refine ⟨by decide, ⟨by decide, by decide⟩, by decide, by decide, ?_⟩
  exact c3_resolver_topological [pFoo, pFooSlash] (by decide) pFoo pFooSlash
    ⟨by decide, by decide⟩ 0 1 (by decide) (by decide)

/-!
## `_FetchTimes` (sync.py lines 2634-2674)

```python
class _FetchTimes:
    _ALPHA = 0.5
    def __init__(self, manifest):
        self._saved = None
        self._seen = {}
    def Get(self, project):
        self._Load()
        return self._saved.get(project.name, _ONE_DAY_S)
    def Set(self, project, t):
        name = project.name
        self._seen[name] = max(self._seen.get(name, 0), t)
    def _Load(self):
        if self._saved is None:
            try: ... self._saved = json.load(f)
            except (OSError, ValueError): ... self._saved = {}
    def Save(self):
        if self._saved is None:
            return
        for name, t in self._seen.items():
            old = self._saved.get(name, t)
            self._seen[name] = (self._ALPHA * t) + ((1 - self._ALPHA) * old)
        ... json.dump(self._seen, f, indent=2)
```

Durations are modeled by `ℚ`: every value in the claims (0, 50, 75, 100,
86400, α = 0.5) is exactly representable in binary floating point, so the
Python float arithmetic agrees with the rational arithmetic on them.
The JSON file contents are insertion-ordered association lists; `disk` is
the parsed content of `.repo_fetchtimes.json`, `none` when the file is
missing or corrupt (the code then deletes it and proceeds with `{}`).
-/

def _ONE_DAY_S : ℚ := 24 * 60 * 60

def _ALPHA : ℚ := 1 / 2

/-- Python dict assignment `d[k] = v` on an insertion-ordered assoc list. -/
def dictSet (k : String) (v : ℚ) : List (String × ℚ) → List (String × ℚ)
  | [] => [(k, v)]
  | (k', v') :: rest => if k' = k then (k, v) :: rest else (k', v') :: dictSet k v rest

/-- Python `d.get(k, default)`. -/
def dictGet (m : List (String × ℚ)) (k : String) (d : ℚ) : ℚ :=
  match m.lookup k with
  | some v => v
  | none => d

structure FetchTimes where
  saved : Option (List (String × ℚ))
  seen : List (String × ℚ)
  deriving DecidableEq, Repr

/-- Fresh store: `self._saved = None; self._seen = {}`. -/
def FetchTimes.init : FetchTimes := ⟨none, []⟩

/-- `_Load`: read the persisted file on first use only. -/
def FetchTimes.load (ft : FetchTimes) (disk : Option (List (String × ℚ))) : FetchTimes :=
  match ft.saved with
  | none => ⟨some (disk.getD []), ft.seen⟩
  | some _ => ft

/-- `Get`: `_Load()` then `self._saved.get(project.name, _ONE_DAY_S)`. -/
def FetchTimes.Get (ft : FetchTimes) (disk : Option (List (String × ℚ))) (name : String) :
    FetchTimes × ℚ :=
  ((ft.load disk), dictGet ((ft.load disk).saved.getD []) name _ONE_DAY_S)

/-- `Set`: keep the longest observed time per name within one run. -/
def FetchTimes.Set (ft : FetchTimes) (name : String) (t : ℚ) : FetchTimes :=
  ⟨ft.saved, dictSet name (max (dictGet ft.seen name 0) t) ft.seen⟩

/-- `Save`: no-op unless `_Load` ran; otherwise blend every observation
with its persisted baseline (defaulting to the observation itself) and
rewrite the file with exactly the blended observations.  Returns the new
file contents, `none` when nothing is written. -/
def FetchTimes.Save (ft : FetchTimes) : Option (List (String × ℚ)) :=
  match ft.saved with
  | none => none
  | some sv =>
    some (ft.seen.map (fun e => (e.1, _ALPHA * e.2 + (1 - _ALPHA) * dictGet sv e.1 e.2)))

theorem lookup_map_blend (g : String → ℚ → ℚ) :
    ∀ (m : List (String × ℚ)) (k : String) (v : ℚ), m.lookup k = some v →
      (m.map (fun e => (e.1, g e.1 e.2))).lookup k = some (g k v) := by
  intro m
  induction m with
  | nil => intro k v h; simp [List.lookup] at h
  | cons e rest ih =>
    obtain ⟨k', v'⟩ := e
    intro k v h
    by_cases hk : k = k'
    · subst hk
      simp only [List.lookup, beq_self_eq_true] at h
      simp only [List.map_cons, List.lookup, beq_self_eq_true]
      simp only [Option.some_inj] at h ⊢
      rw [h]
    · have hbeq : (k == k') = false := by simpa using hk
      simp only [List.lookup, hbeq] at h
      simp only [List.map_cons, List.lookup, hbeq]
      exact ih k v h

theorem lookup_map_keys_none :
    ∀ (m : List (String × ℚ)) (k : String), k ∉ m.map Prod.fst → m.lookup k = none := by
  intro m
  induction m with
  | nil => intro k _; rfl
  | cons e rest ih =>
    obtain ⟨k', v'⟩ := e
    intro k hk
    rw [List.map_cons, List.mem_cons] at hk
    push_neg at hk
    have hbeq : (k == k') = false := by simpa using hk.1
    simp only [List.lookup, hbeq]
    exact ih k hk.2

/-- Claim C4: `Get` returns one day (86400 s) for a name with no persisted
entry; `Save` blends each observation having a persisted baseline as
`0.5*new + 0.5*old`; concretely, from a persisted value 0 an observation
of 100 stores 50, and a second run observing 100 stores 75. -/
theorem c4_fetch_times_smoothing :
    (∀ (disk : List (String × ℚ)) (name : String), disk.lookup name = none →
        (FetchTimes.init.Get (some disk) name).2 = 86400) ∧
    (∀ (ft : FetchTimes) (sv : List (String × ℚ)) (name : String) (t old : ℚ),
        ft.saved = some sv → sv.lookup name = some old → ft.seen.lookup name = some t →
        (ft.Save.getD []).lookup name = some (1 / 2 * t + 1 / 2 * old)) ∧
    (((FetchTimes.init.Get (some [(("p"), 0)]) ("p")).1.Set ("p") 100).Save =
        some [(("p"), 50)]) ∧
    (((FetchTimes.init.Get (some [(("p"), 50)]) ("p")).1.Set ("p") 100).Save =
        some [(("p"), 75)]) := by
  refine ⟨?_, ?_, ?_, ?_⟩
  · intro disk name h
    show dictGet disk name _ONE_DAY_S = 86400
    unfold dictGet
    rw [h]
    norm_num [_ONE_DAY_S]
  · intro ft sv name t old hsv hold hseen
    have h1 : ft.Save = some (ft.seen.map
        (fun e => (e.1, _ALPHA * e.2 + (1 - _ALPHA) * dictGet sv e.1 e.2))) := by
      rw [FetchTimes.Save, hsv]
    rw [h1, Option.getD_some]
    have h2 := lookup_map_blend (fun k v => _ALPHA * v + (1 - _ALPHA) * dictGet sv k v)
      ft.seen name t hseen
    rw [h2]
    have h3 : dictGet sv name t = old := by
      unfold dictGet
      rw [hold]
    show some (_ALPHA * t + (1 - _ALPHA) * dictGet sv name t) = some (1 / 2 * t + 1 / 2 * old)
    rw [h3]
    norm_num [_ALPHA]
  · norm_num [FetchTimes.Get, FetchTimes.load, FetchTimes.Set, FetchTimes.Save,
      FetchTimes.init, dictSet, dictGet, List.lookup, _ALPHA]
  · norm_num [FetchTimes.Get, FetchTimes.load, FetchTimes.Set, FetchTimes.Save,
      FetchTimes.init, dictSet, dictGet, List.lookup, _ALPHA]

/-- Witness for C4 at concrete inputs. -/
theorem c4_fetch_times_smoothing_witness :
    (FetchTimes.init.Get (some []) ("p")).2 = 86400 ∧
      ((FetchTimes.mk (some [(("a"), 2)]) [(("a"), 4)]).Save.getD []).lookup ("a") =
        some 3 := by
  constructor
  · exact c4_fetch_times_smoothing.1 [] ("p") rfl
  · have h := c4_fetch_times_smoothing.2.1 (FetchTimes.mk (some [(("a"), 2)]) [(("a"), 4)])
      [(("a"), 2)] ("a") 4 2 rfl rfl rfl
    rw [h]
    norm_num

/-- Claim C10: without a preceding load `Save` writes nothing (all `Set`
observations are discarded); after a load the rewritten file holds exactly
the names observed via `Set` this run, so persisted entries for unobserved
names are dropped. -/
theorem c10_save_exact_names :
    (∀ ft : FetchTimes, ft.saved = none → ft.Save = none) ∧
    (∀ (ft : FetchTimes) (sv : List (String × ℚ)), ft.saved = some sv →
        ∃ out, ft.Save = some out ∧ out.map Prod.fst = ft.seen.map Prod.fst) ∧
    (∀ (ft : FetchTimes) (sv : List (String × ℚ)) (name : String), ft.saved = some sv →
        name ∉ ft.seen.map Prod.fst → (ft.Save.getD []).lookup name = none) := by
  refine ⟨?_, ?_, ?_⟩
  · intro ft h
    rw [FetchTimes.Save, h]
  · intro ft sv h
    refine ⟨_, by rw [FetchTimes.Save, h], ?_⟩
    rw [List.map_map]
    rfl
  · intro ft sv name h hname
    rw [FetchTimes.Save, h, Option.getD_some]
    apply lookup_map_keys_none
    rw [List.map_map]
    exact hname

/-- Witness for C10 at concrete inputs. -/
theorem c10_save_exact_names_witness :
    FetchTimes.init.Save = none ∧
      ((FetchTimes.mk (some [(("a"), 2)]) [(("b"), 1)]).Save.getD []).lookup ("a") = none := by
  constructor
  · exact c10_save_exact_names.1 FetchTimes.init rfl
  · exact c10_save_exact_names.2.2 (FetchTimes.mk (some [(("a"), 2)]) [(("b"), 1)])
      [(("a"), 2)] ("a") rfl (by decide)

/-!
## Worker error capture: `_FetchOne` (774-847), `_CheckoutOne` (1046-1107)

Both workers run the external per-project operation inside
```python
try:
    ...
except KeyboardInterrupt:
    logger.error(...)
except GitError as e:
    logger.error(...)
    errors.append(e)
except Exception as e:
    logger.error(...)
    errors.append(e)   # _FetchOne only
    raise
```
and then build the result record.  The external operation is modeled by a
behavior oracle; `Except.error` means the worker function itself raises.
-/

inductive PyExc where
  | gitError (msg : String)
  | keyboardInterrupt
  | otherExn (msg : String)
  deriving DecidableEq, Repr

/-- Behavior of `project.Sync_NetworkHalf`: return a result (success flag,
remote-fetched flag, optional error field), or raise. -/
inductive NetworkHalfBehavior where
  | returns (success : Bool) (remoteFetched : Bool) (err : Option PyExc)
  | raises (e : PyExc)
  deriving DecidableEq, Repr

structure FetchOneResult where
  success : Bool
  errors : List PyExc
  remoteFetched : Bool
  deriving DecidableEq, Repr

/-- `_FetchOne`'s control flow (timing, logging and the live-progress
bookkeeping elided). -/
def _FetchOne (behavior : NetworkHalfBehavior) : Except PyExc FetchOneResult :=
  match behavior with
  | .returns success remoteFetched err =>
    Except.ok ⟨success, (match err with | some e => [e] | none => []), remoteFetched⟩
  | .raises e =>
    match e with
    | .keyboardInterrupt => Except.ok ⟨false, [], false⟩
    | .gitError m => Except.ok ⟨false, [PyExc.gitError m], false⟩
    | .otherExn m => Except.error (PyExc.otherExn m)

/-- Behavior of `project.Sync_LocalHalf`: it may append errors to the
caller-provided `errors` list, then return (after which
`syncbuf.Finish()` yields the success flag) or raise. -/
inductive LocalHalfBehavior where
  | returns (finishOk : Bool) (errsAdded : List PyExc)
  | raises (e : PyExc) (errsAdded : List PyExc)
  deriving DecidableEq, Repr

structure CheckoutOneResult where
  success : Bool
  errors : List PyExc
  deriving DecidableEq, Repr

/-- `_CheckoutOne`'s control flow. -/
def _CheckoutOne (behavior : LocalHalfBehavior) : Except PyExc CheckoutOneResult :=
  match behavior with
  | .returns finishOk errsAdded => Except.ok ⟨finishOk, errsAdded⟩
  | .raises e errsAdded =>
    match e with
    | .keyboardInterrupt => Except.ok ⟨false, errsAdded⟩
    | .gitError m => Except.ok ⟨false, errsAdded ++ [PyExc.gitError m]⟩
    | .otherExn m => Except.error (PyExc.otherExn m)

/-- Claim C5, counterexample: a generic exception raised by the underlying
operation is re-raised out of both workers (the bare `raise` in the
`except Exception` handler), not captured into the result record. -/
theorem c5_counterexample :
    _FetchOne (NetworkHalfBehavior.raises (PyExc.otherExn ("boom"))) =
      Except.error (PyExc.otherExn ("boom")) ∧
    _CheckoutOne (LocalHalfBehavior.raises (PyExc.otherExn ("boom")) []) =
      Except.error (PyExc.otherExn ("boom")) :=
  ⟨rfl, rfl⟩

/-- Claim C5, amended: a `GitError` raised by the underlying operation is
captured into the result record (success false, error recorded), an error
reported through the result object is recorded, and a keyboard interrupt
yields a failed record with nothing recorded — but any other exception is
logged and re-raised out of the worker. -/
theorem c5_error_capture_amended :
    (∀ m, _FetchOne (NetworkHalfBehavior.raises (PyExc.gitError m)) =
        Except.ok ⟨false, [PyExc.gitError m], false⟩) ∧
    (∀ m errs, _CheckoutOne (LocalHalfBehavior.raises (PyExc.gitError m) errs) =
        Except.ok ⟨false, errs ++ [PyExc.gitError m]⟩) ∧
    (∀ s r e, _FetchOne (NetworkHalfBehavior.returns s r (some e)) =
        Except.ok ⟨s, [e], r⟩) ∧
    (_FetchOne (NetworkHalfBehavior.raises PyExc.keyboardInterrupt) =
        Except.ok ⟨false, [], false⟩) ∧
    (∀ m, _FetchOne (NetworkHalfBehavior.raises (PyExc.otherExn m)) =
        Except.error (PyExc.otherExn m)) ∧
    (∀ m errs, _CheckoutOne (LocalHalfBehavior.raises (PyExc.otherExn m) errs) =
        Except.error (PyExc.otherExn m)) :=
  ⟨fun _ => rfl, fun _ _ => rfl, fun _ _ _ => rfl, rfl, fun _ => rfl, fun _ _ => rfl⟩

/-!
## `_FetchMain` missing-project loop (sync.py 1014-1044)

```python
previously_missing_set = set()
while True:
    self._ReloadManifest(None, manifest)
    all_projects = self.GetProjects(...)
    missing = []
    for project in all_projects:
        if project.gitdir not in fetched:
            missing.append(project)
    if not missing:
        break
    missing_set = {p.name for p in missing}
    if previously_missing_set == missing_set:
        break
    previously_missing_set = missing_set
    result = self._Fetch(missing, opt, err_event, ssh_proxy, errors)
    ...
    fetched.update(new_fetched)
```

The `fetched` set holds **gitdirs**: `_Fetch._ProcessResults` does
`fetched.add(project.gitdir)` (line 921) and the loop tests
`project.gitdir not in fetched` (line 1027).  Each manifest reload is one
entry of the `reloads` oracle; `fetchFn missing` gives the gitdirs that
`_Fetch(missing, ...)` marks fetched (the successful ones).  `none` means
the loop is still iterating when the oracle runs out.
-/

def missingOf (fetched : List String) (projs : List Project) : List Project :=
  projs.filter (fun p => decide (p.gitdir ∉ fetched))

def namesOf (ps : List Project) : Finset String := (ps.map Project.name).toFinset

inductive FetchLoopExit where
  | noMissing
  | sameMissing
  deriving DecidableEq, Repr

def fetchMainLoop (fetchFn : List Project → List String) :
    List (List Project) → List String → Finset String → Nat →
      Option (Nat × FetchLoopExit × List Project)
  | [], _, _, _ => none
  | reload :: rest, fetched, prevMissing, rounds =>
    if missingOf fetched reload = [] then some (rounds, FetchLoopExit.noMissing, reload)
    else if namesOf (missingOf fetched reload) = prevMissing then
      some (rounds, FetchLoopExit.sameMissing, reload)
    else
      fetchMainLoop fetchFn rest (fetched ++ fetchFn (missingOf fetched reload))
        (namesOf (missingOf fetched reload)) (rounds + 1)

/-- The missing test as claim C6 words it: keyed on `objdir` against a set
of fetched object directories.  Kept for comparison with the code's
gitdir-based `missingOf`. -/
def missingOfClaim (fetchedObjdirs : List String) (projs : List Project) : List Project :=
  projs.filter (fun p => decide (p.objdir ∉ fetchedObjdirs))

/-- The loop as claim C6 words it (objdir-keyed). -/
def fetchMainLoopClaim (fetchFn : List Project → List String) :
    List (List Project) → List String → Finset String → Nat →
      Option (Nat × FetchLoopExit × List Project)
  | [], _, _, _ => none
  | reload :: rest, fetched, prevMissing, rounds =>
    if missingOfClaim fetched reload = [] then some (rounds, FetchLoopExit.noMissing, reload)
    else if namesOf (missingOfClaim fetched reload) = prevMissing then
      some (rounds, FetchLoopExit.sameMissing, reload)
    else
      fetchMainLoopClaim fetchFn rest (fetched ++ fetchFn (missingOfClaim fetched reload))
        (namesOf (missingOfClaim fetched reload)) (rounds + 1)

/-- Two projects sharing one objdir but with distinct gitdirs. -/
def pSh1 : Project := ⟨"p1", "a", "g1", "o"⟩

def pSh2 : Project := ⟨"p2", "b", "g2", "o"⟩

/-- Claim C6, counterexample: the fetched set is keyed by gitdir, not
objdir.  With `pSh1` fetched (gitdir `g1`, objdir `o`) and a reload
revealing `pSh2` (gitdir `g2`, same objdir `o`), the code treats `pSh2` as
missing and runs one extra fetch round, although `pSh2.objdir` is already
in the set of fetched object directories — under the claim's objdir-keyed
reading no round would run. -/
theorem c6_counterexample :
    fetchMainLoop (fun ms => ms.map Project.gitdir) [[pSh1, pSh2], [pSh1, pSh2]]
        [("g1")] ∅ 0 = some (1, FetchLoopExit.noMissing, [pSh1, pSh2]) ∧
    fetchMainLoopClaim (fun ms => ms.map Project.objdir) [[pSh1, pSh2], [pSh1, pSh2]]
        [("o")] ∅ 0 = some (0, FetchLoopExit.noMissing, [pSh1, pSh2]) ∧
    pSh2 ∈ missingOf [("g1")] [pSh1, pSh2] ∧ pSh2.objdir ∈ ([("o")] : List String) := by
  refine ⟨?_, ?_, by decide, by decide⟩
  · rw [fetchMainLoop, if_neg (by decide), if_neg (by decide)]
    rw [show (([("g1")] : List String) ++
        (fun ms => ms.map Project.gitdir) (missingOf [("g1")] [pSh1, pSh2])) =
        [("g1"), ("g2")] by decide]
    rw [fetchMainLoop, if_pos (by decide)]
  · rw [fetchMainLoopClaim, if_pos (by decide)]

/-- Claim C6, amended: the missing test is on gitdirs.  If one reload
reveals exactly one project whose gitdir is not yet fetched, exactly one
additional fetch round occurs; the loop then stops — immediately if the
next reload shows nothing missing, or via the unchanged-missing-set test
if the next reload shows the same missing name set. -/
theorem c6_missing_loop_amended (fetchFn : List Project → List String)
    (fetched : List String) (p : Project) (L1 L2 : List Project)
    (h1 : missingOf fetched L1 = [p])
    (h2 : missingOf (fetched ++ fetchFn [p]) L2 = [] ∨
          namesOf (missingOf (fetched ++ fetchFn [p]) L2) = namesOf [p]) :
    ∃ e, fetchMainLoop fetchFn [L1, L2] fetched ∅ 0 = some (1, e, L2) := by
  have hne : missingOf fetched L1 ≠ [] := by rw [h1]; simp
  have hnames : namesOf (missingOf fetched L1) ≠ ∅ := by
    rw [h1]
    show ([p].map Project.name).toFinset ≠ ∅
    simp
  rw [fetchMainLoop, if_neg hne, if_neg hnames, h1]
  rcases h2 with h2 | h2
  · exact ⟨FetchLoopExit.noMissing, by rw [fetchMainLoop, if_pos h2]⟩
  · have hne2 : missingOf (fetched ++ fetchFn [p]) L2 ≠ [] := by
      intro hnil
      rw [hnil] at h2
      have : (∅ : Finset String) = namesOf [p] := h2
      have hp : p.name ∈ namesOf [p] := by
        show p.name ∈ ([p].map Project.name).toFinset
        simp
      rw [← this] at hp
      simp at hp
    exact ⟨FetchLoopExit.sameMissing, by rw [fetchMainLoop, if_neg hne2, if_pos h2]⟩

/-- Witness for the amended C6 at a concrete input: one new project
appears after the main fetch phase, its fetch succeeds, and the loop exits
after exactly one round. -/
theorem c6_missing_loop_amended_witness :
    ∃ e, fetchMainLoop (fun ms => ms.map Project.gitdir) [[pSh1], [pSh1]] [] ∅ 0 =
      some (1, e, [pSh1]) :=
  c6_missing_loop_amended (fun ms => ms.map Project.gitdir) [] pSh1 [pSh1] [pSh1]
    (by decide) (Or.inl (by decide))

/-!
## Job-count validation: `_ValidateOptionsWithManifest` (1784-1839)

```python
if not opt.jobs:
    opt.jobs = mp.manifest.default.sync_j
if opt.jobs:
    if not opt.jobs_network:
        opt.jobs_network = opt.jobs
    if not opt.jobs_checkout:
        opt.jobs_checkout = opt.jobs
else:
    if not opt.jobs_network:
        opt.jobs_network = 1
    if not opt.jobs_checkout:
        opt.jobs_checkout = DEFAULT_LOCAL_JOBS
    opt.jobs = os.cpu_count()
soft_limit, _ = _rlimit_nofile()
jobs_soft_limit = max(1, (soft_limit - 5) // 3)
opt.jobs = min(opt.jobs, jobs_soft_limit)
opt.jobs_network = min(opt.jobs_network, jobs_soft_limit)
opt.jobs_checkout = min(opt.jobs_checkout, jobs_soft_limit)
for name, value in (("--jobs", opt.jobs), ("--jobs-network", opt.jobs_network),
                    ("--jobs-checkout", opt.jobs_checkout)):
    if value > self._JOBS_WARN_THRESHOLD:   # 100
        logger.warning(...)
        break
```

Unset options are `None`; Python truthiness makes both `None` and `0`
falsy.  `//` is floor division (`Int.fdiv`).  `DEFAULT_LOCAL_JOBS` and
`os.cpu_count()` come from outside this file and are passed as parameters.
The result records the three effective values and which option (if any)
the high-job-count warning names.
-/

def truthyInt : Option Int → Bool
  | none => false
  | some n => decide (n ≠ 0)

structure JobCounts where
  jobs : Int
  jobsNetwork : Int
  jobsCheckout : Int
  warning : Option String
  deriving DecidableEq, Repr

def _JOBS_WARN_THRESHOLD : Int := 100

def validateJobCounts (jobs jobsNetwork jobsCheckout : Option Int)
    (manifestSyncJ : Option Int) (defaultLocalJobs : Int) (cpuCount : Int)
    (softLimit : Int) : JobCounts :=
  let jobs1 := if truthyInt jobs then jobs else manifestSyncJ
  let j := if truthyInt jobs1 then jobs1.getD 0 else cpuCount
  let jn :=
    if truthyInt jobs1 then
      if truthyInt jobsNetwork then jobsNetwork.getD 0 else jobs1.getD 0
    else
      if truthyInt jobsNetwork then jobsNetwork.getD 0 else 1
  let jc :=
    if truthyInt jobs1 then
      if truthyInt jobsCheckout then jobsCheckout.getD 0 else jobs1.getD 0
    else
      if truthyInt jobsCheckout then jobsCheckout.getD 0 else defaultLocalJobs
  let lim := max 1 ((softLimit - 5).fdiv 3)
  let j2 := min j lim
  let jn2 := min jn lim
  let jc2 := min jc lim
  let warning :=
    if j2 > _JOBS_WARN_THRESHOLD then some ("--jobs")
    else if jn2 > _JOBS_WARN_THRESHOLD then some ("--jobs-network")
    else if jc2 > _JOBS_WARN_THRESHOLD then some ("--jobs-checkout")
    else none
  ⟨j2, jn2, jc2, warning⟩

/-- Claim C7, counterexample: with soft RLIMIT 32 and `--jobs=200` the
values are clamped to 9 **before** the warning loop runs, so no warning is
emitted for `--jobs` (9 is not above the threshold of 100). -/
theorem c7_counterexample :
    validateJobCounts (some 200) none none none 8 4 32 = ⟨9, 9, 9, none⟩ ∧
    (validateJobCounts (some 200) none none none 8 4 32).warning ≠ some ("--jobs") := by
  refine ⟨by decide, by decide⟩

/-- Claim C7, amended: with soft RLIMIT 32 and `--jobs=200`, jobs,
jobs_network and jobs_checkout are all clamped to `max(1, (32-5)//3) = 9`
and no high-job-count warning is emitted, because the warning check reads
the already clamped values. -/
theorem c7_jobs_clamp_amended :
    validateJobCounts (some 200) none none none 8 4 32 = ⟨9, 9, 9, none⟩ ∧
    (∀ (jo jn jc ms : Option Int) (dl cpu : Int),
      (validateJobCounts jo jn jc ms dl cpu 32).jobs ≤ 9 ∧
      (validateJobCounts jo jn jc ms dl cpu 32).jobsNetwork ≤ 9 ∧
      (validateJobCounts jo jn jc ms dl cpu 32).jobsCheckout ≤ 9) := by
  refine ⟨by decide, ?_⟩
  intro jo jn jc ms dl cpu
  have hlim : max 1 ((32 - 5 : Int).fdiv 3) = 9 := by decide
  refine ⟨?_, ?_, ?_⟩ <;>
    · show min _ (max 1 ((32 - 5 : Int).fdiv 3)) ≤ 9
      rw [hlim]
      exact min_le_right _ 9

/-!
## Flag validation: `ValidateOptions` (1756-1782)

Each failing check calls `self.OptionParser.error(msg)` which aborts, so
the first failing check wins; the model returns its message (`none` when
validation passes).  Python truthiness on the string-valued options
(`manifest_name`, `smart_tag`, the credentials) makes `None` and `""`
falsy, while the `None in [...]` test for `-u`/`-p` checks `None`
specifically.  The `--force-broken` deprecation warning and the
`opt.prune` defaulting do not affect acceptance and are elided.  There is
no check rejecting `-s` together with `-t`; when both are given,
`_SmartSyncSetup` silently takes the `opt.smart_sync` branch (line 1600).
-/

structure SyncOpts where
  network_only : Bool
  detach_head : Bool
  local_only : Bool
  manifest_name : Option String
  smart_sync : Bool
  smart_tag : Option String
  manifest_server_username : Option String
  manifest_server_password : Option String
  deriving DecidableEq, Repr

def truthyStr : Option String → Bool
  | none => false
  | some s => decide (s ≠ "")

def validateOptions (o : SyncOpts) : Option String :=
  if o.network_only && o.detach_head then some ("cannot combine -n and -d")
  else if o.network_only && o.local_only then some ("cannot combine -n and -l")
  else if truthyStr o.manifest_name && o.smart_sync then some ("cannot combine -m and -s")
  else if truthyStr o.manifest_name && truthyStr o.smart_tag then
    some ("cannot combine -m and -t")
  else if truthyStr o.manifest_server_username || truthyStr o.manifest_server_password then
    if !(o.smart_sync || truthyStr o.smart_tag) then
      some ("-u and -p may only be combined with -s or -t")
    else if o.manifest_server_username.isNone || o.manifest_server_password.isNone then
      some ("both -u and -p must be given")
    else none
  else none

/-- Claim C8, counterexample: `-s` together with `-t` passes validation
with no error — `ValidateOptions` has no check for this pair. -/
theorem c8_counterexample :
    validateOptions ⟨false, false, false, none, true, some ("tag"), none, none⟩ = none := by
  decide

/-- Claim C8, amended: validation rejects `-n`/`-d`, `-n`/`-l`, `-m`/`-s`
and `-m`/`-t` with an error before any sync work starts, but `-s` with
`-t` is not rejected (the smart-sync branch silently takes precedence). -/
theorem c8_mutual_exclusion_amended :
    (∀ o : SyncOpts, o.network_only = true → o.detach_head = true →
        validateOptions o = some ("cannot combine -n and -d")) ∧
    (∀ o : SyncOpts, o.network_only = true → o.detach_head = false → o.local_only = true →
        validateOptions o = some ("cannot combine -n and -l")) ∧
    (∀ o : SyncOpts, o.network_only = false → truthyStr o.manifest_name = true →
        o.smart_sync = true → validateOptions o = some ("cannot combine -m and -s")) ∧
    (∀ o : SyncOpts, o.network_only = false → truthyStr o.manifest_name = true →
        o.smart_sync = false → truthyStr o.smart_tag = true →
        validateOptions o = some ("cannot combine -m and -t")) ∧
    validateOptions ⟨false, false, false, none, true, some ("tag"), none, none⟩ = none := by
  refine ⟨?_, ?_, ?_, ?_, by decide⟩
  · intro o h1 h2
    simp [validateOptions, h1, h2]
  · intro o h1 h2 h3
    simp [validateOptions, h1, h2, h3]
  · intro o h1 h2 h3
    simp [validateOptions, h1, h2, h3]
  · intro o h1 h2 h3 h4
    simp [validateOptions, h1, h2, h3, h4]

/-- Witness for the amended C8 at concrete option records. -/
theorem c8_mutual_exclusion_amended_witness :
    validateOptions ⟨true, true, false, none, false, none, none, none⟩ =
      some ("cannot combine -n and -d") ∧
    validateOptions ⟨true, false, true, none, false, none, none, none⟩ =
      some ("cannot combine -n and -l") ∧
    validateOptions ⟨false, false, false, some ("m.xml"), true, none, none, none⟩ =
      some ("cannot combine -m and -s") ∧
    validateOptions ⟨false, false, false, some ("m.xml"), false, some ("tag"), none, none⟩ =
      some ("cannot combine -m and -t") :=
  ⟨c8_mutual_exclusion_amended.1 _ rfl rfl,
    c8_mutual_exclusion_amended.2.1 _ rfl rfl rfl,
    c8_mutual_exclusion_amended.2.2.1 _ rfl (by decide) rfl,
    c8_mutual_exclusion_amended.2.2.2.1 _ rfl (by decide) rfl (by decide)⟩

/-!
## Interleaved sync outer loop: `_SyncInterleaved` (2420-2578)

```python
synced_relpaths = set()
project_list = list(all_projects)
previously_pending_relpaths = set()
while True:
    projects_to_sync = [p for p in project_list
                        if p.relpath not in synced_relpaths]
    if not projects_to_sync:
        break
    pending_relpaths = {p.relpath for p in projects_to_sync}
    if previously_pending_relpaths == pending_relpaths:
        logger.error("Stall detected ...")
        err_event.set()
        break
    previously_pending_relpaths = pending_relpaths
    ... dispatch levels; callback adds to synced_relpaths,
        failures set err_event ...
    self._ReloadManifest(None, manifest)
    project_list = self.GetProjects(...)
...
if err_event.is_set():
    self._ReportErrors(errors, ...)   # always raises SyncError
```

Each oracle entry holds one iteration's effects: the relpaths the
dispatch callback marked synced, whether dispatch contributed an error,
and the project list of the closing manifest reload.  Modeled with
fail-fast off (with fail-fast on, a dispatch error raises before the
stall check can ever trigger).  The Bool of the result is the final
`err_event` state.
-/

structure InterleavedStep where
  newlySynced : List String
  dispatchErr : Bool
  reloadedProjects : List Project

inductive InterleavedExit where
  | done
  | stalled
  | oracleOut
  deriving DecidableEq, Repr

/-- `projects_to_sync = [p for p in project_list if p.relpath not in synced_relpaths]`. -/
def pendingOf (projectList : List Project) (synced : Finset String) : List Project :=
  projectList.filter (fun p => decide (p.relpath ∉ synced))

/-- `pending_relpaths = {p.relpath for p in projects_to_sync}`. -/
def pendingRelpaths (pending : List Project) : Finset String :=
  (pending.map Project.relpath).toFinset

def interleavedLoop :
    List InterleavedStep → List Project → Finset String → Finset String → Bool →
      InterleavedExit × Bool
  | [], projectList, synced, prevPending, err =>
    if pendingOf projectList synced = [] then (InterleavedExit.done, err)
    else if prevPending = pendingRelpaths (pendingOf projectList synced) then
      (InterleavedExit.stalled, true)
    else (InterleavedExit.oracleOut, err)
  | step :: rest, projectList, synced, prevPending, err =>
    if pendingOf projectList synced = [] then (InterleavedExit.done, err)
    else if prevPending = pendingRelpaths (pendingOf projectList synced) then
      (InterleavedExit.stalled, true)
    else
      interleavedLoop rest step.reloadedProjects (synced ∪ step.newlySynced.toFinset)
        (pendingRelpaths (pendingOf projectList synced)) (err || step.dispatchErr)

theorem interleavedLoop_cons (step : InterleavedStep) (rest : List InterleavedStep)
    (projectList : List Project) (synced prevPending : Finset String) (err : Bool) :
    interleavedLoop (step :: rest) projectList synced prevPending err =
      if pendingOf projectList synced = [] then (InterleavedExit.done, err)
      else if prevPending = pendingRelpaths (pendingOf projectList synced) then
        (InterleavedExit.stalled, true)
      else
        interleavedLoop rest step.reloadedProjects (synced ∪ step.newlySynced.toFinset)
          (pendingRelpaths (pendingOf projectList synced)) (err || step.dispatchErr) := by
  rfl

inductive RunOutcome where
  | completed
  | raisedSyncError
  deriving DecidableEq, Repr

/-- After the loop, `_SyncInterleaved` checks `err_event.is_set()`;
`_ReportErrors` then unconditionally raises `SyncError` (line 2095). -/
def interleavedFinish (r : InterleavedExit × Bool) : RunOutcome :=
  if r.2 then RunOutcome.raisedSyncError else RunOutcome.completed

/-- Claim C9: when an iteration dispatches a non-empty pending set and the
next iteration recomputes the same set, the orchestrator declares a stall:
it sets the error flag and exits the loop without dispatching again
(the result does not depend on the rest of the oracle), and the run ends
by raising the aggregate `SyncError`. -/
theorem c9_interleaved_stall (step : InterleavedStep) (rest : List InterleavedStep)
    (projectList : List Project) (synced prevPending : Finset String) (err : Bool)
    (hne : pendingOf projectList synced ≠ [])
    (hdiff : prevPending ≠ pendingRelpaths (pendingOf projectList synced))
    (hsame : pendingRelpaths (pendingOf step.reloadedProjects
        (synced ∪ step.newlySynced.toFinset)) =
      pendingRelpaths (pendingOf projectList synced)) :
    interleavedLoop (step :: rest) projectList synced prevPending err =
      (InterleavedExit.stalled, true) ∧
    interleavedFinish (interleavedLoop (step :: rest) projectList synced prevPending err) =
      RunOutcome.raisedSyncError := by
  have hne2 : pendingOf step.reloadedProjects (synced ∪ step.newlySynced.toFinset) ≠ [] := by
    intro hnil
    rw [hnil] at hsame
    obtain ⟨q, hq⟩ : ∃ q, q ∈ pendingOf projectList synced :=
      List.exists_mem_of_ne_nil _ hne
    have hqin : q.relpath ∈ pendingRelpaths (pendingOf projectList synced) := by
      show q.relpath ∈ ((pendingOf projectList synced).map Project.relpath).toFinset
      rw [List.mem_toFinset]
      exact List.mem_map_of_mem Project.relpath hq
    rw [← hsame] at hqin
    simp [pendingRelpaths] at hqin
  have hmain : interleavedLoop (step :: rest) projectList synced prevPending err =
      (InterleavedExit.stalled, true) := by
    rw [interleavedLoop_cons, if_neg hne, if_neg hdiff]
    cases rest with
    | nil =>
      rw [interleavedLoop, if_neg hne2, if_pos hsame.symm]
    | cons step2 rest2 =>
      rw [interleavedLoop_cons, if_neg hne2, if_pos hsame.symm]
  exact ⟨hmain, by rw [hmain]; rfl⟩

/-- Witness for C9: a single project whose dispatch syncs nothing and
whose reload returns the same manifest stalls on the second iteration. -/
theorem c9_interleaved_stall_witness :
    interleavedLoop [⟨[], false, [pFoo]⟩] [pFoo] ∅ ∅ false =
      (InterleavedExit.stalled, true) ∧
    interleavedFinish (interleavedLoop [⟨[], false, [pFoo]⟩] [pFoo] ∅ ∅ false) =
      RunOutcome.raisedSyncError :=
  c9_interleaved_stall ⟨[], false, [pFoo]⟩ [] [pFoo] ∅ ∅ false (by decide) (by decide)
    (by decide)

end RepoSync
